import Mathlib

/-!
# Shallow embedding of `external_set` (src/lib.rs)

The crate provides `ExternalSet<T>`, a thread-safe set of references to items
owned externally by `ItemOwner` handles.  In the Rust source the set is a
`RwLock<HashSet<*mut T>>`: it stores only raw pointers (identities), while each
item's storage is a separate heap allocation (`Box`) owned by its handle.

The embedding makes the process heap explicit:

* `World T` models the heap as an association list from addresses (`Nat`) to
  values, together with a bump allocator counter `next`.  The deterministic
  allocator (`boxIntoRaw`) never reuses an address; the real allocator only
  guarantees distinctness from currently live allocations and may hand a
  freed address out again, which the relational semantics `RunA` models and
  which matters exactly where address reuse is observable.
* `ExternalSet` holds the `HashSet<*mut T>` contents as a duplicate-free list
  of addresses; `hsInsert`/`hsRemove` model `HashSet::insert`/`remove`.
* Each operation of the source is translated as a pure function that threads
  the `World` explicitly; fallible heap reads return `Option`.

Since all operations take the `RwLock` for the full duration of their critical
section, quiescent-point behaviour is exactly the sequential composition of
the critical sections, which is what the trace semantics below executes.
-/

/-- The process heap and allocator: `heap` maps live addresses to values,
`next` is the bump-allocation counter.  Models the Rust global allocator for
`Box` (every live allocation has a distinct address). -/
structure World (T : Type) where
  heap : List (Nat × T)
  next : Nat
deriving Repr

/-- Look an address up in a heap (the first matching entry). -/
def heapLookup {T : Type} : List (Nat × T) → Nat → Option T
  | [], _ => none
  | (q, v) :: rest, p => if q = p then some v else heapLookup rest p

/-- `Box::into_raw(Box::new(item))`: allocate a fresh address for `item`.
This deterministic model takes the next counter value, so an address is
never reused across a whole trace — an idealization that is stronger than
`Box::new`'s real guarantee (distinctness from currently live allocations
only).  Claims that are sensitive to address reuse are settled against the
relational `RunA` semantics instead, which permits reuse of dead
addresses. -/
def boxIntoRaw {T : Type} (w : World T) (item : T) : Nat × World T :=
  (w.next, ⟨(w.next, item) :: w.heap, w.next + 1⟩)

/-- `*Box::from_raw(ptr)`: read the value stored at `ptr` and free the
allocation.  The read is `Option`-valued because in the model a dangling
pointer yields `none` (the source would have undefined behaviour there). -/
def boxFromRaw {T : Type} (w : World T) (p : Nat) : Option T × World T :=
  (heapLookup w.heap p, ⟨w.heap.filter (fun e => decide (e.1 ≠ p)), w.next⟩)

/-- `HashSet::insert`: add `p` if absent (the list stays duplicate-free). -/
def hsInsert (s : List Nat) (p : Nat) : List Nat :=
  if p ∈ s then s else p :: s

/-- `HashSet::remove`: delete `p`. -/
def hsRemove (s : List Nat) (p : Nat) : List Nat :=
  s.filter (fun q => decide (q ≠ p))

/-- `ExternalSet<T>`: the `RwLock<HashSet<*mut T>>`.  Only the pointer
identities live here; the pointed-to storage is in the `World`. -/
structure ExternalSet where
  items : List Nat
deriving Repr, DecidableEq

/-- `ItemOwner<'s, T>`: the owning handle, carrying the raw pointer of its
item.  (The `collection` back-reference is supplied explicitly to the
operations that use it.) -/
structure ItemOwner where
  ptr : Nat
deriving Repr, DecidableEq

/-- `ExternalSet::new`. -/
def ExternalSet.new : ExternalSet := ⟨[]⟩

/-- `ExternalSet::insert`: box the item, record its address in the set under
the write lock, and return the owning handle (plus the updated set and heap). -/
def ExternalSet.insert {T : Type} (c : ExternalSet) (w : World T) (item : T) :
    ItemOwner × ExternalSet × World T :=
  let r := boxIntoRaw w item
  (⟨r.1⟩, ⟨hsInsert c.items r.1⟩, r.2)

/-- `ExternalSetReadGuard<'c, T>`: the read-locked view of the hash set.  The
guard's field is the locked `HashSet` contents. -/
structure ExternalSetReadGuard where
  items : List Nat
deriving Repr, DecidableEq

/-- `ExternalSet::lock`: acquire the read lock, returning a guard over the
current contents. -/
def ExternalSet.lock (c : ExternalSet) : ExternalSetReadGuard := ⟨c.items⟩

/-- `ExternalSetIter<'g, T>`: the iterator, holding the not-yet-visited part
of the hash-set iteration plus the optional excluded pointer. -/
structure ExternalSetIter where
  iter : List Nat
  except : Option Nat
deriving Repr, DecidableEq

/-- `ExternalSetReadGuard::iter`: a fresh iterator over the guard's snapshot,
with no exclusion. -/
def ExternalSetReadGuard.iter (g : ExternalSetReadGuard) : ExternalSetIter :=
  ⟨g.items, none⟩

/-- `ExternalSetReadGuard::others`: a fresh iterator over the guard's
snapshot, excluding the provided handle's pointer. -/
def ExternalSetReadGuard.others (g : ExternalSetReadGuard) (except : ItemOwner) :
    ExternalSetIter :=
  ⟨g.items, some except.ptr⟩

/-- The loop of `ExternalSetIter::next`: pull elements from the underlying
hash-set iterator, skipping any equal to the excluded pointer (`except` is
constant through the recursive `self.next()` call of the source).  Returns
the yielded pointer (if any) and the rest of the underlying iteration. -/
def nextAux (e : Option Nat) : List Nat → Option Nat × List Nat
  | [] => (none, [])
  | i :: rest => if some i = e then nextAux e rest else (some i, rest)

/-- `ExternalSetIter::next`: the source yields `Some(&*i)` for the next
non-excluded pointer `i`; the model yields the pointer itself, dereference
being a separate `heapLookup`. -/
def ExternalSetIter.next (it : ExternalSetIter) : Option Nat × ExternalSetIter :=
  ((nextAux it.except it.iter).1, ⟨(nextAux it.except it.iter).2, it.except⟩)

/-- Drive an iterator by repeated `next` calls, with explicit fuel, collecting
the yielded pointers and returning the final iterator state.  Stops at the
first `none`. -/
def runIter {T : Type} : Nat → ExternalSetIter → List Nat × ExternalSetIter
  | 0, it => ([], it)
  | fuel + 1, it =>
    match it.next with
    | (none, it') => ([], it')
    | (some i, it') => ((runIter (T := T) fuel it').1.cons i, (runIter (T := T) fuel it').2)

/-- All pointers an iterator yields before reaching `none` (fuel
`it.iter.length` suffices, as each yielding `next` consumes at least one
element of the underlying iteration). -/
def ExternalSetIter.toList (it : ExternalSetIter) : List Nat :=
  (runIter (T := Unit) it.iter.length it).1

/-- The values an iterator yields: each yielded pointer dereferenced in the
given heap (`Some(unsafe { &*i })` in the source). -/
def iterVals {T : Type} (w : World T) (it : ExternalSetIter) : List (Option T) :=
  it.toList.map (heapLookup w.heap)

/-- `ItemOwner::take`: under the write lock remove the pointer from the
collection's set, then reclaim the box and return the value by move. -/
def ItemOwner.take {T : Type} (o : ItemOwner) (c : ExternalSet) (w : World T) :
    Option T × ExternalSet × World T :=
  let r := boxFromRaw w o.ptr
  (r.1, ⟨hsRemove c.items o.ptr⟩, r.2)

/-- `impl Drop for ItemOwner`: under the write lock remove the pointer from
the collection's set, then reclaim the box and discard the value. -/
def ItemOwner.drop {T : Type} (o : ItemOwner) (c : ExternalSet) (w : World T) :
    ExternalSet × World T :=
  (⟨hsRemove c.items o.ptr⟩, (boxFromRaw w o.ptr).2)

/-- `impl Deref for ItemOwner`: read the value at the handle's pointer. -/
def ItemOwner.deref {T : Type} (o : ItemOwner) (w : World T) : Option T :=
  heapLookup w.heap o.ptr

/-! ## Trace semantics

For claims quantifying over "every sequence of insert/take/drop operations"
we execute operation scripts against a state holding the set, the world and
the list of currently alive handles (each paired with the value it was
inserted with).  `take i`/`drop i` act on the `i`-th alive handle and consume
it, mirroring Rust's move semantics; an out-of-range index is a no-op (the
type system makes such a call unwritable in the source). -/

/-- One operation of a client script. -/
inductive Op (T : Type) where
  | insert (v : T)
  | take (idx : Nat)
  | drop (idx : Nat)
deriving Repr, DecidableEq

/-- A quiescent state: the set, the heap/allocator, and the alive handles
(with their originally inserted values). -/
structure TraceState (T : Type) where
  set : ExternalSet
  world : World T
  alive : List (ItemOwner × T)
deriving Repr

/-- The initial state: a fresh empty set, an empty heap, no handles. -/
def initState (T : Type) : TraceState T :=
  ⟨ExternalSet.new, ⟨[], 0⟩, []⟩

/-- Execute one operation. -/
def applyOp {T : Type} (st : TraceState T) : Op T → TraceState T
  | .insert v =>
    let r := st.set.insert st.world v
    ⟨r.2.1, r.2.2, st.alive ++ [(r.1, v)]⟩
  | .take idx =>
    match st.alive.get? idx with
    | some x =>
      let r := x.1.take st.set st.world
      ⟨r.2.1, r.2.2, st.alive.eraseIdx idx⟩
    | none => st
  | .drop idx =>
    match st.alive.get? idx with
    | some x =>
      let r := x.1.drop st.set st.world
      ⟨r.1, r.2, st.alive.eraseIdx idx⟩
    | none => st

/-- Execute a script left to right. -/
def run {T : Type} (ops : List (Op T)) (st : TraceState T) : TraceState T :=
  ops.foldl applyOp st

/-- The quiescent-state invariant: `StInv st` packages what is true of every
state reachable by a script.  The hash set is duplicate-free, its contents
are exactly the pointers of the alive handles, alive handles have pairwise
distinct pointers, every recorded pointer was allocated (is below the bump
counter), and each alive handle's pointer still stores the value it was
inserted with. -/
structure StInv {T : Type} (st : TraceState T) : Prop where
  items_nodup : st.set.items.Nodup
  mem_iff : ∀ p, p ∈ st.set.items ↔ p ∈ st.alive.map (fun x => x.1.ptr)
  alive_nodup : (st.alive.map (fun x => x.1.ptr)).Nodup
  items_lt : ∀ p ∈ st.set.items, p < st.world.next
  alive_lt : ∀ x ∈ st.alive, x.1.ptr < st.world.next
  alive_val : ∀ x ∈ st.alive, heapLookup st.world.heap x.1.ptr = some x.2

/-- Execution of a script under the real allocation contract of `Box::new`:
the address chosen for an insertion is only guaranteed to be distinct from
every *currently live* allocation — a previously freed address may be chosen
again (the deterministic `boxIntoRaw` above strengthens this to a
never-reusing counter).  `addrs` records the address chosen for each
insertion, in script order; take and drop allocate nothing and are exactly
the deterministic `applyOp` steps. -/
inductive RunA {T : Type} : TraceState T → List (Op T) → List Nat → TraceState T → Prop where
  | nil (st : TraceState T) : RunA st [] [] st
  | insert (st : TraceState T) (v : T) (a : Nat) (ops : List (Op T))
      (addrs : List Nat) (stf : TraceState T)
      (hdead : heapLookup st.world.heap a = none)
      (hrest : RunA ⟨⟨hsInsert st.set.items a⟩,
        ⟨(a, v) :: st.world.heap, st.world.next⟩,
        st.alive ++ [(⟨a⟩, v)]⟩ ops addrs stf) :
      RunA st (Op.insert v :: ops) (a :: addrs) stf
  | take (st : TraceState T) (idx : Nat) (ops : List (Op T))
      (addrs : List Nat) (stf : TraceState T)
      (hrest : RunA (applyOp st (Op.take idx)) ops addrs stf) :
      RunA st (Op.take idx :: ops) addrs stf
  | drop (st : TraceState T) (idx : Nat) (ops : List (Op T))
      (addrs : List Nat) (stf : TraceState T)
      (hrest : RunA (applyOp st (Op.drop idx)) ops addrs stf) :
      RunA st (Op.drop idx :: ops) addrs stf

/-- Insert the same value twice in a row: returns both handles, the final
set and the final world. -/
def insertTwice {T : Type} (c : ExternalSet) (w : World T) (v : T) :
    ItemOwner × ItemOwner × ExternalSet × World T :=
  ((c.insert w v).1,
   ((c.insert w v).2.1.insert (c.insert w v).2.2 v).1,
   ((c.insert w v).2.1.insert (c.insert w v).2.2 v).2.1,
   ((c.insert w v).2.1.insert (c.insert w v).2.2 v).2.2)

/-! ## Basic lemmas about the heap and the hash-set model -/

theorem heapLookup_cons {T : Type} (q : Nat) (v : T) (h : List (Nat × T)) (p : Nat) :
    heapLookup ((q, v) :: h) p = if q = p then some v else heapLookup h p := rfl

theorem heapLookup_filter_ne {T : Type} (h : List (Nat × T)) (q p : Nat) (hpq : p ≠ q) :
    heapLookup (h.filter (fun e => decide (e.1 ≠ q))) p = heapLookup h p := by
  induction h with
  | nil => rfl
  | cons e rest ih =>
    obtain ⟨a, b⟩ := e
    by_cases he : a = q
    · have hne : ¬ a = p := fun hc => hpq (hc ▸ he)
      rw [List.filter_cons_of_neg (by simp [he])]
      rw [ih, heapLookup_cons, if_neg hne]
    · rw [List.filter_cons_of_pos (by simp [he])]
      rw [heapLookup_cons, heapLookup_cons, ih]

theorem mem_hsInsert (s : List Nat) (p q : Nat) :
    q ∈ hsInsert s p ↔ q = p ∨ q ∈ s := by
  unfold hsInsert
  by_cases h : p ∈ s
  · simp only [if_pos h]
    constructor
    · exact Or.inr
    · rintro (rfl | hq)
      · exact h
      · exact hq
  · rw [if_neg h]
    exact List.mem_cons

theorem mem_hsRemove (s : List Nat) (p q : Nat) :
    q ∈ hsRemove s p ↔ q ∈ s ∧ q ≠ p := by
  unfold hsRemove
  simp [List.mem_filter]

theorem hsInsert_nodup (s : List Nat) (p : Nat) (h : s.Nodup) :
    (hsInsert s p).Nodup := by
  unfold hsInsert
  by_cases hp : p ∈ s
  · simpa [if_pos hp]
  · simpa [if_neg hp, hp]

theorem hsRemove_nodup (s : List Nat) (p : Nat) (h : s.Nodup) :
    (hsRemove s p).Nodup :=
  h.filter _

/-! ## The iterator yields exactly the non-excluded pointers -/

theorem nextAux_none {e : Option Nat} {l l' : List Nat}
    (h : nextAux e l = (none, l')) : l' = [] := by
  induction l with
  | nil => simpa [nextAux] using h
  | cons i rest ih =>
    by_cases hi : some i = e
    · exact ih (by simpa [nextAux, hi] using h)
    · simp [nextAux, hi] at h

theorem nextAux_some_length {e : Option Nat} {l l' : List Nat} {i : Nat}
    (h : nextAux e l = (some i, l')) : l'.length < l.length := by
  induction l generalizing l' with
  | nil => simp [nextAux] at h
  | cons j rest ih =>
    by_cases hj : some j = e
    · have := ih (by simpa [nextAux, hj] using h)
      exact Nat.lt_succ_of_lt this
    · simp only [nextAux, if_neg hj, Prod.mk.injEq] at h
      simp [← h.2, Nat.lt_succ_self]

theorem nextAux_filter (e : Option Nat) (l : List Nat) :
    l.filter (fun i => decide (some i ≠ e)) =
      match nextAux e l with
      | (none, _) => []
      | (some i, l₂) => i :: l₂.filter (fun i => decide (some i ≠ e)) := by
  induction l with
  | nil => simp [nextAux]
  | cons i rest ih =>
    by_cases hi : some i = e
    · simp only [List.filter_cons, hi]
      simpa [nextAux, hi] using ih
    · simp [nextAux, List.filter_cons, hi]

theorem runIter_spec {T : Type} (fuel : Nat) :
    ∀ (l : List Nat) (e : Option Nat), l.length ≤ fuel →
      runIter (T := T) fuel ⟨l, e⟩ =
        (l.filter (fun i => decide (some i ≠ e)), ⟨[], e⟩) := by
  induction fuel with
  | zero =>
    intro l e hl
    have : l = [] := List.length_eq_zero.mp (Nat.le_zero.mp hl)
    subst this
    simp [runIter]
  | succ fuel ih =>
    intro l e hl
    rw [runIter]
    have hnext : (⟨l, e⟩ : ExternalSetIter).next =
        ((nextAux e l).1, ⟨(nextAux e l).2, e⟩) := rfl
    rcases hna : nextAux e l with ⟨r, l₂⟩
    cases r with
    | none =>
      have hl₂ : l₂ = [] := nextAux_none hna
      subst hl₂
      have hfil := nextAux_filter e l
      rw [hna] at hfil
      have hfil2 : l.filter (fun i => decide (some i ≠ e)) = [] := hfil
      simp only [hnext, hna]
      rw [hfil2]
    | some i =>
      have hlen : l₂.length < l.length := nextAux_some_length hna
      have hrec := ih l₂ e (Nat.le_of_lt_succ (Nat.lt_of_lt_of_le hlen hl))
      have hfil := nextAux_filter e l
      rw [hna] at hfil
      have hfil2 : l.filter (fun i => decide (some i ≠ e)) =
          i :: l₂.filter (fun i => decide (some i ≠ e)) := hfil
      simp only [hnext, hna]
      rw [hrec, hfil2]

theorem toList_eq_filter (l : List Nat) (e : Option Nat) :
    ExternalSetIter.toList ⟨l, e⟩ = l.filter (fun i => decide (some i ≠ e)) := by
  unfold ExternalSetIter.toList
  rw [runIter_spec l.length l e (Nat.le_refl _)]

theorem iter_toList (c : ExternalSet) :
    (c.lock.iter).toList = c.items := by
  unfold ExternalSet.lock ExternalSetReadGuard.iter
  rw [toList_eq_filter]
  apply List.filter_eq_self.mpr
  intro a _
  simp

theorem others_toList (c : ExternalSet) (h : ItemOwner) :
    (c.lock.others h).toList = c.items.filter (fun i => decide (i ≠ h.ptr)) := by
  unfold ExternalSet.lock ExternalSetReadGuard.others
  rw [toList_eq_filter]
  congr 1
  funext i
  exact decide_eq_decide.mpr (not_congr Option.some_inj)

theorem decide_ne_eq_bne (i p : Nat) : decide (i ≠ p) = (i != p) := by
  by_cases h : i = p
  · subst h
    simp
  · simp [h, bne]

/-! ## List helper lemmas for the handle bookkeeping -/

theorem map_eraseIdx {α β : Type} (f : α → β) :
    ∀ (l : List α) (n : Nat), (l.eraseIdx n).map f = (l.map f).eraseIdx n
  | [], _ => rfl
  | _ :: _, 0 => rfl
  | a :: l, n + 1 => by
    simp only [List.eraseIdx, List.map_cons]
    rw [map_eraseIdx f l n]

theorem mem_eraseIdx_of_nodup :
    ∀ (l : List Nat) (idx : Nat) (a : Nat), l.Nodup → l.get? idx = some a →
      ∀ p, (p ∈ l.eraseIdx idx ↔ p ∈ l ∧ p ≠ a)
  | [], idx, a, _, hget, _ => by simp [List.get?] at hget
  | b :: rest, 0, a, hnd, hget, p => by
    have hab : a = b := by simpa [List.get?] using hget.symm
    subst hab
    have hbrest : a ∉ rest := (List.nodup_cons.mp hnd).1
    constructor
    · intro hp
      refine ⟨List.mem_cons_of_mem _ hp, ?_⟩
      intro hpa
      exact hbrest (hpa ▸ hp)
    · rintro ⟨hp, hpa⟩
      rcases List.mem_cons.mp hp with rfl | hp
      · exact absurd rfl hpa
      · exact hp
  | b :: rest, n + 1, a, hnd, hget, p => by
    have hget' : rest.get? n = some a := hget
    have hnd' := List.nodup_cons.mp hnd
    have ih := mem_eraseIdx_of_nodup rest n a hnd'.2 hget' p
    have hba : b ≠ a := by
      intro hc
      exact hnd'.1 (hc ▸ List.get?_mem hget')
    show p ∈ b :: rest.eraseIdx n ↔ p ∈ b :: rest ∧ p ≠ a
    constructor
    · intro hp
      rcases List.mem_cons.mp hp with rfl | hp
      · exact ⟨List.mem_cons_self _ _, hba⟩
      · exact ⟨List.mem_cons_of_mem _ (ih.mp hp).1, (ih.mp hp).2⟩
    · rintro ⟨hp, hpa⟩
      rcases List.mem_cons.mp hp with rfl | hp
      · exact List.mem_cons_self _ _
      · exact List.mem_cons_of_mem _ (ih.mpr ⟨hp, hpa⟩)

theorem inv_init (T : Type) : StInv (initState T) := by
  constructor <;> simp [initState, ExternalSet.new]

theorem applyOp_drop_eq {T : Type} (st : TraceState T) (idx : Nat) :
    applyOp st (Op.drop idx) = applyOp st (Op.take idx) := by
  unfold applyOp
  cases st.alive.get? idx <;> rfl

theorem inv_applyOp_insert {T : Type} (st : TraceState T) (v : T) (h : StInv st) :
    StInv (applyOp st (Op.insert v)) := by
  obtain ⟨h1, h2, h3, h4, h5, h6⟩ := h
  have hfresh : st.world.next ∉ st.alive.map (fun x => x.1.ptr) := by
    intro hc
    rcases List.mem_map.mp hc with ⟨x, hx, hpx⟩
    exact absurd (hpx ▸ h5 x hx) (Nat.lt_irrefl _)
  have hfresh' : st.world.next ∉ st.set.items := fun hc => hfresh ((h2 _).mp hc)
  constructor
  · exact hsInsert_nodup _ _ h1
  · intro p
    simp only [applyOp, ExternalSet.insert, boxIntoRaw]
    rw [mem_hsInsert]
    simp only [List.map_append, List.map_cons, List.map_nil, List.mem_append,
      List.mem_singleton]
    rw [h2 p]
    tauto
  · simp only [applyOp, List.map_append, List.map_cons, List.map_nil]
    rw [List.nodup_append]
    exact ⟨h3, List.nodup_singleton _, by simpa using fun hc => hfresh hc⟩
  · intro p hp
    simp only [applyOp, ExternalSet.insert, boxIntoRaw] at hp ⊢
    rcases (mem_hsInsert _ _ _).mp hp with rfl | hp
    · exact Nat.lt_succ_self _
    · exact Nat.lt_succ_of_lt (h4 p hp)
  · intro x hx
    simp only [applyOp, ExternalSet.insert, boxIntoRaw] at hx ⊢
    rcases List.mem_append.mp hx with hx | hx
    · exact Nat.lt_succ_of_lt (h5 x hx)
    · simp only [List.mem_singleton] at hx
      subst hx
      exact Nat.lt_succ_self _
  · intro x hx
    simp only [applyOp, ExternalSet.insert, boxIntoRaw] at hx ⊢
    rcases List.mem_append.mp hx with hx | hx
    · have hne : ¬ st.world.next = x.1.ptr := fun hc =>
        absurd (hc ▸ h5 x hx) (Nat.lt_irrefl _)
      rw [heapLookup_cons, if_neg hne]
      exact h6 x hx
    · simp only [List.mem_singleton] at hx
      subst hx
      simp [heapLookup_cons]

theorem inv_applyOp_take {T : Type} (st : TraceState T) (idx : Nat) (h : StInv st) :
    StInv (applyOp st (Op.take idx)) := by
  obtain ⟨h1, h2, h3, h4, h5, h6⟩ := h
  rcases hget : st.alive.get? idx with _ | x
  · have hget' : st.alive[idx]? = none := by simpa using hget
    have heq : applyOp st (Op.take idx) = st := by
      simp [applyOp, hget']
    rw [heq]
    exact ⟨h1, h2, h3, h4, h5, h6⟩
  · have hgetm : (st.alive.map (fun x => x.1.ptr)).get? idx = some x.1.ptr := by
      rw [List.get?_map, hget]
      rfl
    have hmem_erase := mem_eraseIdx_of_nodup _ idx x.1.ptr h3 hgetm
    have hsubl : ((st.alive.map (fun x => x.1.ptr)).eraseIdx idx).Sublist
        (st.alive.map (fun x => x.1.ptr)) := List.eraseIdx_sublist _ idx
    have halive_mem : ∀ y ∈ st.alive.eraseIdx idx, y ∈ st.alive := fun y hy =>
      (List.eraseIdx_sublist st.alive idx).subset hy
    have halive_ne : ∀ y ∈ st.alive.eraseIdx idx, y.1.ptr ≠ x.1.ptr := by
      intro y hy
      have : y.1.ptr ∈ (st.alive.eraseIdx idx).map (fun x => x.1.ptr) :=
        List.mem_map.mpr ⟨y, hy, rfl⟩
      rw [map_eraseIdx] at this
      exact (hmem_erase y.1.ptr |>.mp this).2
    constructor
    · simp only [applyOp, hget, ItemOwner.take]
      exact hsRemove_nodup _ _ h1
    · intro p
      simp only [applyOp, hget, ItemOwner.take]
      rw [mem_hsRemove, map_eraseIdx, hmem_erase p, h2 p]
    · simp only [applyOp, hget]
      rw [map_eraseIdx]
      exact h3.sublist hsubl
    · intro p hp
      simp only [applyOp, hget, ItemOwner.take, boxFromRaw] at hp ⊢
      exact h4 p ((mem_hsRemove _ _ _).mp hp).1
    · intro y hy
      simp only [applyOp, hget, ItemOwner.take, boxFromRaw] at hy ⊢
      exact h5 y (halive_mem y hy)
    · intro y hy
      simp only [applyOp, hget, ItemOwner.take, boxFromRaw] at hy ⊢
      rw [heapLookup_filter_ne _ _ _ (halive_ne y hy)]
      exact h6 y (halive_mem y hy)

theorem inv_applyOp {T : Type} (st : TraceState T) (op : Op T) (h : StInv st) :
    StInv (applyOp st op) := by
  cases op with
  | insert v => exact inv_applyOp_insert st v h
  | take idx => exact inv_applyOp_take st idx h
  | drop idx =>
    rw [applyOp_drop_eq]
    exact inv_applyOp_take st idx h

theorem inv_run {T : Type} (ops : List (Op T)) (st : TraceState T) (h : StInv st) :
    StInv (run ops st) := by
  induction ops generalizing st with
  | nil => exact h
  | cons op rest ih => exact ih _ (inv_applyOp st op h)

theorem inv_run_init {T : Type} (ops : List (Op T)) :
    StInv (run ops (initState T)) :=
  inv_run ops _ (inv_init T)

theorem hsInsert_of_not_mem (s : List Nat) (p : Nat) (h : p ∉ s) :
    hsInsert s p = p :: s := by
  simp [hsInsert, h]

theorem lock_items (c : ExternalSet) : (c.lock).items = c.items := rfl

theorem guard_iter_toList (g : ExternalSetReadGuard) : g.iter.toList = g.items := by
  show ExternalSetIter.toList ⟨g.items, none⟩ = g.items
  rw [toList_eq_filter]
  apply List.filter_eq_self.mpr
  intro a _
  simp

/-! ## A removed pointer stays out of the set while no insertion reuses it -/

theorem notMem_applyOp_take {T : Type} (p : Nat) (st : TraceState T) (idx : Nat)
    (hp : p ∉ st.set.items) : p ∉ (applyOp st (Op.take idx)).set.items := by
  rcases hg : st.alive.get? idx with _ | x
  · have heq : applyOp st (Op.take idx) = st := by
      simp only [applyOp, hg]
    rw [heq]
    exact hp
  · intro hc
    simp only [applyOp, hg, ItemOwner.take] at hc
    exact hp ((mem_hsRemove _ _ _).mp hc).1

theorem notMem_runA {T : Type} (p : Nat) {st : TraceState T} {ops : List (Op T)}
    {addrs : List Nat} {stf : TraceState T}
    (hrun : RunA st ops addrs stf) (hp : p ∉ st.set.items) (hnr : p ∉ addrs) :
    p ∉ stf.set.items := by
  induction hrun with
  | nil st => exact hp
  | insert st v a ops addrs stf hdead hrest ih =>
    apply ih ?_ (fun hc => hnr (List.mem_cons_of_mem _ hc))
    intro hc
    rcases (mem_hsInsert _ _ _).mp hc with rfl | hc
    · exact hnr (List.mem_cons_self _ _)
    · exact hp hc
  | take st idx ops addrs stf hrest ih =>
    exact ih (notMem_applyOp_take p st idx hp) hnr
  | drop st idx ops addrs stf hrest ih =>
    refine ih ?_ hnr
    rw [applyOp_drop_eq]
    exact notMem_applyOp_take p st idx hp

/-! ## Claims -/

/-- **C1** (membership invariant): for every sequence of insert/take/drop
operations executed from a fresh set, at the resulting quiescent point the
identities yielded by `iter()` on a freshly acquired guard are exactly the
identities of the handles that are currently alive and have not been taken. -/
theorem membership_invariant (T : Type) (ops : List (Op T)) (p : Nat) :
    p ∈ (((run ops (initState T)).set.lock).iter).toList ↔
      p ∈ (run ops (initState T)).alive.map (fun x => x.1.ptr) := by
  rw [guard_iter_toList]
  exact (inv_run_init ops).mem_iff p

/-- **C3** (value integrity of take): calling `take()` on the handle returned
by `insert(v)` returns exactly `v` and removes the handle's identity from the
set's mapping, whatever the prior contents of set and heap. -/
theorem take_value_integrity (T : Type) (w : World T) (c : ExternalSet) (v : T) :
    (((c.insert w v).1).take (c.insert w v).2.1 (c.insert w v).2.2).1 = some v ∧
      (c.insert w v).1.ptr ∉
        (((c.insert w v).1).take (c.insert w v).2.1 (c.insert w v).2.2).2.1.items := by
  constructor
  · show heapLookup ((w.next, v) :: w.heap) w.next = some v
    rw [heapLookup_cons, if_pos rfl]
  · intro hc
    have hc' : (c.insert w v).1.ptr ∈
        hsRemove (hsInsert c.items w.next) (c.insert w v).1.ptr := hc
    exact ((mem_hsRemove _ _ _).mp hc').2 rfl

/-- **C4** (drop/take equivalence): dropping a handle leaves the backing set
and the heap in exactly the state that `take()` on the same handle would; the
paths differ only in returning the value. -/
theorem drop_take_equivalence (T : Type) (w : World T) (c : ExternalSet)
    (h : ItemOwner) :
    h.drop c w = ((h.take c w).2.1, (h.take c w).2.2) := rfl

/-- **C7** (restartable iteration): a second `iter()` on the same guard
yields the same collection of identities as the first (up to permutation,
order being unspecified), each pass being a fresh traversal of the guard's
locked snapshot. -/
theorem restartable_iteration (g : ExternalSetReadGuard) :
    ((g.iter).toList).Perm ((g.iter).toList) ∧ (g.iter).toList = g.items :=
  ⟨List.Perm.refl _, guard_iter_toList g⟩

/-- **C2** (exclusion correctness): on a guard of a set (whose hash set is
duplicate-free, as `HashSet` guarantees), `others(h)` yields exactly the
identities yielded by `iter()` minus the one equal to `h`'s identity when
that identity is present; when `h`'s identity is not in this set (e.g. the
handle belongs to a different set instance, whose allocations are distinct),
`others(h)` yields exactly what `iter()` yields. -/
theorem others_exclusion (c : ExternalSet) (h : ItemOwner)
    (hnd : c.items.Nodup) :
    (h.ptr ∈ ((c.lock).iter).toList →
      ((c.lock).others h).toList = (((c.lock).iter).toList).erase h.ptr) ∧
    (h.ptr ∉ ((c.lock).iter).toList →
      ((c.lock).others h).toList = ((c.lock).iter).toList) := by
  have hiter : ((c.lock).iter).toList = c.items := guard_iter_toList _
  have hothers : ((c.lock).others h).toList =
      c.items.filter (fun i => decide (i ≠ h.ptr)) := others_toList c h
  constructor
  · intro _
    rw [hiter, hothers, hnd.erase_eq_filter]
    exact List.filter_congr (fun a _ => decide_ne_eq_bne a h.ptr)
  · intro hmem
    rw [hiter] at hmem
    rw [hiter, hothers]
    apply List.filter_eq_self.mpr
    intro a ha
    simp only [decide_eq_true_eq]
    intro hc
    exact hmem (hc ▸ ha)

/-- Witness for `others_exclusion`: on the set `{0, 1}`, excluding the handle
with pointer `0` yields the `iter()` list with `0` erased, and excluding a
foreign handle with pointer `7` yields the `iter()` list unchanged. -/
theorem others_exclusion_witness :
    (⟨[0, 1]⟩ : ExternalSet).items.Nodup ∧
    (((⟨[0, 1]⟩ : ExternalSet).lock).others ⟨0⟩).toList =
      ((((⟨[0, 1]⟩ : ExternalSet).lock).iter).toList).erase 0 ∧
    (((⟨[0, 1]⟩ : ExternalSet).lock).others ⟨7⟩).toList =
      (((⟨[0, 1]⟩ : ExternalSet).lock).iter).toList := by
  refine ⟨by decide, ?_, ?_⟩
  · exact (others_exclusion ⟨[0, 1]⟩ ⟨0⟩ (by decide)).1 (by decide)
  · exact (others_exclusion ⟨[0, 1]⟩ ⟨7⟩ (by decide)).2 (by decide)

/-- **C8** (finite iteration): on a guard of a set with duplicate-free hash
set, the iterators produced by `iter()` and `others()` yield exactly one
pointer per non-excluded identity of the set, and after the driving loop has
consumed the iterator, a further call to `next` returns `none`: iteration is
finite. -/
theorem finite_iteration (c : ExternalSet) (h : ItemOwner)
    (hnd : c.items.Nodup) :
    (∀ p, (((c.lock).iter).toList).count p = if p ∈ c.items then 1 else 0) ∧
    (∀ p, (((c.lock).others h).toList).count p =
      if p ∈ c.items ∧ p ≠ h.ptr then 1 else 0) ∧
    ((runIter (T := Unit) c.items.length ((c.lock).iter)).2).next.1 = none ∧
    ((runIter (T := Unit) c.items.length ((c.lock).others h)).2).next.1 = none := by
  refine ⟨?_, ?_, ?_, ?_⟩
  · intro p
    rw [guard_iter_toList]
    by_cases hp : p ∈ c.items
    · rw [if_pos hp]
      exact List.count_eq_one_of_mem hnd hp
    · rw [if_neg hp]
      exact List.count_eq_zero_of_not_mem hp
  · intro p
    rw [others_toList]
    by_cases hp : p ∈ c.items ∧ p ≠ h.ptr
    · rw [if_pos hp]
      exact List.count_eq_one_of_mem (hnd.filter _)
        (List.mem_filter.mpr ⟨hp.1, by simpa using hp.2⟩)
    · rw [if_neg hp]
      apply List.count_eq_zero_of_not_mem
      intro hc
      rcases List.mem_filter.mp hc with ⟨hc1, hc2⟩
      exact hp ⟨hc1, by simpa using hc2⟩
  · show ((runIter (T := Unit) c.items.length ⟨c.items, none⟩).2).next.1 = none
    rw [runIter_spec c.items.length c.items none (Nat.le_refl _)]
    rfl
  · show ((runIter (T := Unit) c.items.length ⟨c.items, some h.ptr⟩).2).next.1 = none
    rw [runIter_spec c.items.length c.items (some h.ptr) (Nat.le_refl _)]
    rfl

/-- Witness for `finite_iteration`: on the set `{0, 1}` with exclusion of
pointer `1`, `iter()` yields `0` once, `others` yields `1` zero times, and
both iterators are exhausted after the driving loop. -/
theorem finite_iteration_witness :
    (⟨[0, 1]⟩ : ExternalSet).items.Nodup ∧
    ((((⟨[0, 1]⟩ : ExternalSet).lock).iter).toList).count 0 = 1 ∧
    ((((⟨[0, 1]⟩ : ExternalSet).lock).others ⟨1⟩).toList).count 1 = 0 ∧
    ((runIter (T := Unit) 2 (((⟨[0, 1]⟩ : ExternalSet).lock).iter)).2).next.1 = none := by
  have h := finite_iteration ⟨[0, 1]⟩ ⟨1⟩ (by decide)
  refine ⟨by decide, ?_, ?_, ?_⟩
  · have h0 := h.1 0
    simpa using h0
  · have h1 := h.2.1 1
    simpa using h1
  · exact h.2.2.1

/-- Counterexample to **C5** as stated: identity is the raw pointer value,
and `Box::new` may return a previously freed address.  From the reachable
state after `insert 5` (handle with pointer `0`), take that handle; a later
`insert 7` whose box is allocated at the freed address `0` — permitted by the
allocation contract, since `0` is dead at that point — makes `iter()` yield
identity `0` again. -/
theorem idempotent_removal_counterexample :
    run [Op.insert 5] (initState Nat) =
      (⟨⟨[0]⟩, ⟨[(0, 5)], 1⟩, [(⟨0⟩, 5)]⟩ : TraceState Nat) ∧
    (⟨⟨[0]⟩, ⟨[(0, 5)], 1⟩, [(⟨0⟩, 5)]⟩ : TraceState Nat).alive.get? 0 =
      some (⟨0⟩, 5) ∧
    RunA (⟨⟨[0]⟩, ⟨[(0, 5)], 1⟩, [(⟨0⟩, 5)]⟩ : TraceState Nat)
      [Op.take 0, Op.insert 7] [0]
      (⟨⟨[0]⟩, ⟨[(0, 7)], 1⟩, [(⟨0⟩, 7)]⟩ : TraceState Nat) ∧
    (0 : Nat) ∈
      ((((⟨⟨[0]⟩, ⟨[(0, 7)], 1⟩, [(⟨0⟩, 7)]⟩ : TraceState Nat).set.lock).iter).toList) := by
  refine ⟨rfl, rfl, ?_, by decide⟩
  apply RunA.take
  exact RunA.insert _ 7 0 [] [] _ rfl (RunA.nil _)

/-- **C5 (amended)**: once `take()` or drop has run on a handle, the handle's
identity appears in a later `iter()` only if a subsequent insertion's box is
allocated at exactly the handle's freed address; for every subsequent
sequence of operations none of whose insertions is allocated at that address,
the identity never reappears — stated over the relational allocator
semantics `RunA`, which permits reuse of dead addresses. -/
theorem idempotent_removal_amended (T : Type) (st1 : TraceState T) (idx : Nat)
    (x : ItemOwner × T) (ops : List (Op T)) (addrs : List Nat)
    (stT stD : TraceState T)
    (hget : st1.alive.get? idx = some x)
    (hnr : x.1.ptr ∉ addrs)
    (hrunT : RunA (applyOp st1 (Op.take idx)) ops addrs stT)
    (hrunD : RunA (applyOp st1 (Op.drop idx)) ops addrs stD) :
    x.1.ptr ∉ ((stT.set.lock).iter).toList ∧
    x.1.ptr ∉ ((stD.set.lock).iter).toList := by
  have hpT : x.1.ptr ∉ (applyOp st1 (Op.take idx)).set.items := by
    intro hc
    simp only [applyOp, hget, ItemOwner.take] at hc
    exact ((mem_hsRemove _ _ _).mp hc).2 rfl
  have hpD : x.1.ptr ∉ (applyOp st1 (Op.drop idx)).set.items := by
    rw [applyOp_drop_eq]
    exact hpT
  constructor
  · rw [guard_iter_toList]
    exact notMem_runA x.1.ptr hrunT hpT hnr
  · rw [guard_iter_toList]
    exact notMem_runA x.1.ptr hrunD hpD hnr

/-- Witness for `idempotent_removal_amended`: take the only handle (pointer
`0`), then insert `7` allocated at the distinct address `1`; identity `0` is
not yielded, on both the take and the drop path. -/
theorem idempotent_removal_amended_witness :
    (⟨⟨[0]⟩, ⟨[(0, 5)], 1⟩, [(⟨0⟩, 5)]⟩ : TraceState Nat).alive.get? 0 =
      some (⟨0⟩, 5) ∧
    (0 : Nat) ∉ ([1] : List Nat) ∧
    (0 : Nat) ∉
      ((((⟨⟨[1]⟩, ⟨[(1, 7)], 1⟩, [(⟨1⟩, 7)]⟩ : TraceState Nat).set.lock).iter).toList) := by
  refine ⟨rfl, by decide, ?_⟩
  have hT : RunA
      (applyOp (⟨⟨[0]⟩, ⟨[(0, 5)], 1⟩, [(⟨0⟩, 5)]⟩ : TraceState Nat) (Op.take 0))
      [Op.insert 7] [1]
      (⟨⟨[1]⟩, ⟨[(1, 7)], 1⟩, [(⟨1⟩, 7)]⟩ : TraceState Nat) :=
    RunA.insert _ 7 1 [] [] _ rfl (RunA.nil _)
  have hD : RunA
      (applyOp (⟨⟨[0]⟩, ⟨[(0, 5)], 1⟩, [(⟨0⟩, 5)]⟩ : TraceState Nat) (Op.drop 0))
      [Op.insert 7] [1]
      (⟨⟨[1]⟩, ⟨[(1, 7)], 1⟩, [(⟨1⟩, 7)]⟩ : TraceState Nat) :=
    RunA.insert _ 7 1 [] [] _ rfl (RunA.nil _)
  exact (idempotent_removal_amended Nat ⟨⟨[0]⟩, ⟨[(0, 5)], 1⟩, [(⟨0⟩, 5)]⟩ 0
    (⟨0⟩, 5) [Op.insert 7] [1] _ _ rfl (by decide) hT hD).1

/-- **C6** (dereference stability): a live, not-taken handle dereferences to
the value it was inserted with, and that value is unchanged by a take or a
drop performed on a different handle of the same set. -/
theorem deref_stability (T : Type) (ops : List (Op T)) (i j : Nat)
    (x y : ItemOwner × T)
    (hi : (run ops (initState T)).alive.get? i = some x)
    (hj : (run ops (initState T)).alive.get? j = some y)
    (hij : i ≠ j) :
    x.1.deref (run ops (initState T)).world = some x.2 ∧
    x.1.deref (applyOp (run ops (initState T)) (Op.take j)).world = some x.2 ∧
    x.1.deref (applyOp (run ops (initState T)) (Op.drop j)).world = some x.2 := by
  have hinv := inv_run_init ops
  have hval : heapLookup (run ops (initState T)).world.heap x.1.ptr = some x.2 :=
    hinv.alive_val x (List.get?_mem hi)
  have hgi : ((run ops (initState T)).alive.map (fun z => z.1.ptr)).get? i =
      some x.1.ptr := by
    rw [List.get?_map, hi]
    rfl
  have hgj : ((run ops (initState T)).alive.map (fun z => z.1.ptr)).get? j =
      some y.1.ptr := by
    rw [List.get?_map, hj]
    rfl
  have hne : x.1.ptr ≠ y.1.ptr := by
    intro hc
    apply hij
    exact List.get?_inj (List.get?_eq_some.mp hgi).1 hinv.alive_nodup
      (hgi.trans (hc ▸ hgj.symm))
  have htake : x.1.deref (applyOp (run ops (initState T)) (Op.take j)).world =
      some x.2 := by
    show heapLookup (applyOp (run ops (initState T)) (Op.take j)).world.heap x.1.ptr =
      some x.2
    simp only [applyOp, hj, ItemOwner.take, boxFromRaw]
    rw [heapLookup_filter_ne _ _ _ hne]
    exact hval
  refine ⟨hval, htake, ?_⟩
  rw [applyOp_drop_eq]
  exact htake

/-- Witness for `deref_stability`: insert `1` then `2`; the first handle
(pointer `0`) dereferences to `1` before and after taking the second. -/
theorem deref_stability_witness :
    (run [Op.insert 1, Op.insert 2] (initState Nat)).alive.get? 0 = some (⟨0⟩, 1) ∧
    ItemOwner.deref ⟨0⟩ (run [Op.insert 1, Op.insert 2] (initState Nat)).world = some 1 ∧
    ItemOwner.deref ⟨0⟩
      (applyOp (run [Op.insert 1, Op.insert 2] (initState Nat)) (Op.take 1)).world = some 1 := by
  have h := deref_stability Nat [Op.insert 1, Op.insert 2] 0 1 (⟨0⟩, 1) (⟨1⟩, 2)
    (by decide) (by decide) (by decide)
  exact ⟨by decide, h.1, h.2.1⟩

/-- **C9** (duplicate values get distinct identities): inserting the same
value twice into a set (whose recorded pointers were all previously
allocated) yields two distinct identities, both simultaneously present, and
`iter()` then yields the value once per insertion: membership is by identity,
never deduplicated by value equality. -/
theorem duplicate_values_distinct (T : Type) [DecidableEq T] (w : World T)
    (c : ExternalSet) (v : T) (hb : ∀ p ∈ c.items, p < w.next) :
    (insertTwice c w v).1.ptr ≠ (insertTwice c w v).2.1.ptr ∧
    (insertTwice c w v).1.ptr ∈ (insertTwice c w v).2.2.1.items ∧
    (insertTwice c w v).2.1.ptr ∈ (insertTwice c w v).2.2.1.items ∧
    (iterVals (insertTwice c w v).2.2.2
        (((insertTwice c w v).2.2.1.lock).iter)).count (some v) =
      (iterVals w ((c.lock).iter)).count (some v) + 2 := by
  have hn1 : w.next ∉ c.items := fun hc => absurd (hb _ hc) (Nat.lt_irrefl _)
  have hn2 : w.next + 1 ∉ w.next :: c.items := by
    intro hc
    rcases List.mem_cons.mp hc with hc | hc
    · exact Nat.succ_ne_self _ hc
    · exact absurd (hb _ hc) (Nat.lt_asymm (Nat.lt_succ_self _))
  have hitems : (insertTwice c w v).2.2.1.items =
      (w.next + 1) :: w.next :: c.items := by
    show hsInsert (hsInsert c.items w.next) (w.next + 1) =
      (w.next + 1) :: w.next :: c.items
    rw [hsInsert_of_not_mem _ _ hn1, hsInsert_of_not_mem _ _ hn2]
  have hheap : (insertTwice c w v).2.2.2.heap =
      (w.next + 1, v) :: (w.next, v) :: w.heap := rfl
  refine ⟨Nat.ne_of_lt (Nat.lt_succ_self _), ?_, ?_, ?_⟩
  · rw [hitems]
    exact List.mem_cons_of_mem _ (List.mem_cons_self _ _)
  · rw [hitems]
    exact List.mem_cons_self _ _
  · unfold iterVals
    rw [guard_iter_toList, guard_iter_toList, lock_items, lock_items, hitems, hheap]
    have hmap : c.items.map
        (heapLookup ((w.next + 1, v) :: (w.next, v) :: w.heap)) =
        c.items.map (heapLookup w.heap) := by
      apply List.map_congr_left
      intro p hp
      have hlt := hb p hp
      have h1 : ¬ w.next + 1 = p := fun hc =>
        absurd (hc ▸ hlt) (Nat.lt_asymm (Nat.lt_succ_self _))
      have h2 : ¬ w.next = p := fun hc => absurd (hc ▸ hlt) (Nat.lt_irrefl _)
      rw [heapLookup_cons, if_neg h1, heapLookup_cons, if_neg h2]
    rw [List.map_cons, List.map_cons, hmap]
    have hv1 : heapLookup ((w.next + 1, v) :: (w.next, v) :: w.heap) (w.next + 1) =
        some v := by
      rw [heapLookup_cons, if_pos rfl]
    have hv2 : heapLookup ((w.next + 1, v) :: (w.next, v) :: w.heap) w.next =
        some v := by
      rw [heapLookup_cons, if_neg (Nat.succ_ne_self w.next), heapLookup_cons,
        if_pos rfl]
    rw [hv1, hv2]
    simp [List.count_cons]

/-- Witness for `duplicate_values_distinct`: from the empty set, inserting
`3` twice produces pointers `0` and `1`. -/
theorem duplicate_values_distinct_witness :
    (∀ p ∈ (⟨[]⟩ : ExternalSet).items, p < (⟨[], 0⟩ : World Nat).next) ∧
    (insertTwice (⟨[]⟩ : ExternalSet) (⟨[], 0⟩ : World Nat) 3).1.ptr ≠
      (insertTwice (⟨[]⟩ : ExternalSet) (⟨[], 0⟩ : World Nat) 3).2.1.ptr := by
  refine ⟨by decide, ?_⟩
  exact (duplicate_values_distinct Nat ⟨[], 0⟩ ⟨[]⟩ 3 (by decide)).1

/-- **C10** (insert frame property): on a set whose recorded pointers were
all previously allocated, `insert(v)` returns a handle whose identity is new
(distinct from every identity already in the set), the new set contains
exactly the new identity plus the old ones, every previously allocated
pointer still dereferences to the same value, and the set grows by exactly
one identity. -/
theorem insert_frame (T : Type) (w : World T) (c : ExternalSet) (v : T)
    (hb : ∀ p ∈ c.items, p < w.next) :
    (c.insert w v).1.ptr ∉ c.items ∧
    (∀ p, p ∈ (c.insert w v).2.1.items ↔ p = (c.insert w v).1.ptr ∨ p ∈ c.items) ∧
    (∀ p, p < w.next →
      heapLookup (c.insert w v).2.2.heap p = heapLookup w.heap p) ∧
    (c.insert w v).2.1.items.length = c.items.length + 1 := by
  have hn1 : w.next ∉ c.items := fun hc => absurd (hb _ hc) (Nat.lt_irrefl _)
  refine ⟨hn1, ?_, ?_, ?_⟩
  · intro p
    exact mem_hsInsert c.items w.next p
  · intro p hp
    have hne : ¬ w.next = p := fun hc => absurd (hc ▸ hp) (Nat.lt_irrefl _)
    show heapLookup ((w.next, v) :: w.heap) p = heapLookup w.heap p
    rw [heapLookup_cons, if_neg hne]
  · show (hsInsert c.items w.next).length = c.items.length + 1
    rw [hsInsert_of_not_mem _ _ hn1, List.length_cons]

/-- Witness for `insert_frame`: inserting `7` into the set `{0}` over a heap
with one allocation grows the set to two identities. -/
theorem insert_frame_witness :
    (∀ p ∈ (⟨[0]⟩ : ExternalSet).items, p < (⟨[(0, 5)], 1⟩ : World Nat).next) ∧
    ((⟨[0]⟩ : ExternalSet).insert (⟨[(0, 5)], 1⟩ : World Nat) 7).2.1.items.length =
      (⟨[0]⟩ : ExternalSet).items.length + 1 := by
  refine ⟨by decide, ?_⟩
  exact (insert_frame Nat ⟨[(0, 5)], 1⟩ ⟨[0]⟩ 7 (by decide)).2.2.2
